import Mathlib

/-!
# Verification of the functown decorator-composition core

Shallow embedding of `functown/utils/base_decorator.py` and
`functown/utils/stack_decorator.py` (the decorator stacking / composition
core), together with proofs about the spec claims on that core.

Conventions of the embedding:
* Python object/function identities (`id(obj)`, used by `BaseDecorator.__id`
  to build registry keys) are modelled as natural numbers; everything runs on
  a single thread, so the `f"{thread_id}-{id(obj)}"` key is just the `id`.
* `BaseDecorator.__decorator_count` (a `Dict[str, Tuple[int, str]]` at class
  level) is modelled as an insertion-ordered association list with Python
  `dict` assignment semantics (overwrite in place, append when absent).
  The second tuple component (`base_id`) may be `None`, hence `Option Nat`.
* `inspect.Signature` is modelled as the ordered list of parameters with
  name, kind, annotation and default; annotations/defaults are opaque.
-/

namespace Functown

/-- Parameter kinds of `inspect.Parameter` that the code distinguishes. -/
inductive ParamKind where
  | posOnly
  | posOrKw
  | varPos
  | kwOnly
  | varKw
deriving DecidableEq

/-- One `inspect.Parameter`: name, kind, and opaque annotation/default. -/
structure Param where
  name : String
  kind : ParamKind
  annot : String
  dflt : Option String
deriving DecidableEq

/-- An `inspect.Signature`: the ordered parameter list. -/
structure Sig where
  parameters : List Param
deriving DecidableEq

/-- The declared parameter names of a signature, in order. -/
def Sig.names (s : Sig) : List String := s.parameters.map Param.name

/-- Embedding of `BaseDecorator.__modify_sig`: first restrict `kws` to the names actually
present in the signature; if any remain, rebuild the signature keeping only
the parameters whose name is not among them. -/
def modifySig (sig : Sig) (kws : List String) : Sig :=
  let kws2 := kws.filter (fun kw => decide (kw ∈ sig.names))
  if kws2.isEmpty then sig
  else ⟨sig.parameters.filter (fun p => decide (p.name ∉ kws2))⟩

/-- The names of the variadic catch-all parameters of a signature, in order
(the `kws` list built in `BaseDecorator.__call__` for the outermost unit:
parameters of kind `VAR_KEYWORD` or `VAR_POSITIONAL`). -/
def varNames (s : Sig) : List String :=
  (s.parameters.filter (fun p => decide (p.kind = .varKw ∨ p.kind = .varPos))).map Param.name

/-- A registry value: `(count, base_id)` as stored in `__decorator_count`.
`base_id` is `None` on the per-target base entries. -/
abbrev Entry := Nat × Option Nat

/-- Embedding of `BaseDecorator.__decorator_count`: an insertion-ordered dictionary from
identity keys to entries. -/
abbrev Registry := List (Nat × Entry)

/-- Dictionary lookup (`dict.get` / `dict[...]`). -/
def rget : Registry → Nat → Option Entry
  | [], _ => none
  | (k, v) :: r, a => if k = a then some v else rget r a

/-- Dictionary assignment: overwrite in place when the key exists, otherwise
append at the end (Python `dict` insertion order). -/
def rset : Registry → Nat → Entry → Registry
  | [], k, v => [(k, v)]
  | (k', v') :: r, k, v => if k' = k then (k, v) :: r else (k', v') :: rset r k v

/-- The key list of a registry, in insertion order. -/
def keys (r : Registry) : List Nat := r.map Prod.fst

/-- The closure shape of a Python callable, as far as
`BaseDecorator.__find_closure` can observe it:
* `plain fid`: a plain function (no closure cell holding a `BaseDecorator`);
  `fid` is `id(func)`.
* `wrapped wid decAddr inner`: an `execute` closure produced by
  `BaseDecorator.__call__`; its single closure cell holds the decorator
  instance whose identity is `decAddr`; `wid` is `id(execute)`. -/
inductive FShape where
  | plain (fid : Nat)
  | wrapped (wid : Nat) (decAddr : Nat) (inner : FShape)
deriving DecidableEq

/-- Embedding of `BaseDecorator.__find_closure`: the identity of the first `BaseDecorator`
held in the closure of the callable, if any. -/
def findClosure : FShape → Option Nat
  | .plain _ => none
  | .wrapped _ d _ => some d

/-- The value `id(func)` (the key `BaseDecorator.__set_base_id` uses). -/
def fshapeId : FShape → Nat
  | .plain fid => fid
  | .wrapped wid _ _ => wid

/-- Embedding of `BaseDecorator.__increase_count`, run by a decorator with identity
`selfAddr` whose `self.func` is `func`.  If the target closes over a
registered decorator, the new entry continues that chain; otherwise
`__set_base_id` (re)sets the base entry `(0, None)` keyed by `id(func)` and
the new entry starts at count 1. -/
def increaseCount (reg : Registry) (selfAddr : Nat) (func : FShape) : Registry :=
  match findClosure func with
  | some ref =>
    match rget reg ref with
    | some (level, baseId) => rset reg selfAddr (level + 1, baseId)
    | none => rset (rset reg (fshapeId func) (0, none)) selfAddr (1, some (fshapeId func))
  | none => rset (rset reg (fshapeId func) (0, none)) selfAddr (1, some (fshapeId func))

/-- Embedding of `BaseDecorator.level`: `__decorator_count.get(self.__address)`, minus one.
`addr` is `self.__address`, which is `None` until the decorator has applied
itself (then `.get(None)` finds nothing and the property returns `None`). -/
def levelOf (reg : Registry) (addr : Option Nat) : Option Int :=
  match addr with
  | none => none
  | some a => (rget reg a).map (fun e => (e.1 : Int) - 1)

/-- Embedding of `BaseDecorator.is_first_decorator`: `None` while `self.__address is None`;
otherwise true iff no registered entry of the same chain (`base_id`) has a
strictly larger count.  (When the address is set it is always a registry key,
so the lookup in the source cannot fail; the embedding returns `none` on the
unreachable missing-key case.) -/
def isFirstDec (reg : Registry) (addr : Option Nat) : Option Bool :=
  match addr with
  | none => none
  | some a =>
    match rget reg a with
    | none => none
    | some (cur, base) =>
      some (! reg.any (fun p => decide (p.2.2 = base ∧ cur < p.2.1)))

/-- A decorator unit as configured by `BaseDecorator.__init__` in init mode:
its own identity `addr` (= `id(self)`), its `added_kw` list, and its
`mask_signature` flag. -/
structure DecU where
  addr : Nat
  added_kw : List String
  mask : Bool
deriving DecidableEq

/-- The signature `inspect.signature` computes for the raw `execute` closure
(`def execute(*args, **kwargs)`) when no `__signature__` was attached,
i.e. when `mask_signature` was false. -/
def execSig : Sig :=
  ⟨[⟨"args", .varPos, "", none⟩, ⟨"kwargs", .varKw, "", none⟩]⟩

/-- A Python callable as observed by the composition core: its closure shape
and the signature `inspect.signature` reports for it (the attached
`__signature__` when masking was on, the declared signature for a plain
function, `execSig` for an unmasked wrapper). -/
structure FVal where
  shape : FShape
  sigv : Sig
deriving DecidableEq

/-- Embedding of `BaseDecorator.__call__` in init mode (`@Decorator()` applied to `f`):
register via `__increase_count`, then, when `mask_signature` is set, attach
the projected signature — stripping the variadic catch-alls in addition to
`added_kw` unless `is_first_decorator is False` at this very moment. -/
def applyDec (reg : Registry) (d : DecU) (wid : Nat) (f : FVal) : Registry × FVal :=
  let reg2 := increaseCount reg d.addr f.shape
  let sig2 :=
    if d.mask then
      let kws := if isFirstDec reg2 (some d.addr) = some false then []
                 else varNames f.sigv
      modifySig f.sigv (d.added_kw ++ kws)
    else execSig
  (reg2, ⟨.wrapped wid d.addr f.shape, sig2⟩)

/-- Applying a list of decorator units in sequence (first element applied
first, hence innermost) around a target; each element carries the fresh
`id(execute)` of the wrapper it produces. -/
def applyChain (reg : Registry) (f : FVal) : List (DecU × Nat) → Registry × FVal
  | [] => (reg, f)
  | dw :: rest => applyChain (applyDec reg dw.1 dw.2 f).1 (applyDec reg dw.1 dw.2 f).2 rest

/-- Embedding of `StackDecorator.__init__`: `kws = added_kw or []`, then `kws.extend(
dec.added_kw)` for every member, in order.  No de-duplication happens. -/
def stackAddedKw (added_kw : Option (List String)) (memberKws : List (List String)) : List String :=
  memberKws.foldl (fun kws l => kws ++ l) (match added_kw with | none => [] | some l => l)

/-- Applying a `StackDecorator` to a target registers only the stack
decorator itself (members are untouched until the wrapped callable runs). -/
def stackApply (reg : Registry) (stackAddr : Nat) (extra : Option (List String))
    (memberKws : List (List String)) (wid : Nat) (f : FVal) : Registry × FVal :=
  applyDec reg ⟨stackAddr, stackAddedKw extra memberKws, true⟩ wid f

/-- The registry effect plus produced callable of one invocation of a
the composed callable of a `StackDecorator`: `run` applies every member decorator to
`self.func` (the original target), in order, building fresh wrappers. -/
def stackInvoke (reg : Registry) (target : FVal) (members : List (DecU × Nat)) :
    Registry × FVal :=
  applyChain reg target members

/-! ## Closed form of the registry after building one chain -/

/-- The registry entries a chain of units contributes when it continues a
chain whose current top count is `c` under base id `b`: counts
`c+1, c+2, …` in application order. -/
def chainBlock (b : Option Nat) : Nat → List (DecU × Nat) → List (Nat × Entry)
  | _, [] => []
  | c, dw :: rest => (dw.1.addr, (c + 1, b)) :: chainBlock b (c + 1) rest

/-! ## Several chains built in sequence -/

/-- One chain specification: the id of the plain target, its declared signature,
and the units (with wrapper ids) applied around it, in order. -/
abbrev ChainSpec := Nat × Sig × List (DecU × Nat)

/-- All identity tokens a chain specification consumes: the target id and the
unit ids. -/
def specIds (sp : ChainSpec) : List Nat := sp.1 :: sp.2.2.map (fun dw => dw.1.addr)

/-- Building several chains one after the other, each around its own plain
target (the order units apply themselves inside one chain is the only order
the source permits: innermost first). -/
def buildChains (reg : Registry) : List ChainSpec → Registry
  | [] => reg
  | sp :: rest => buildChains (applyChain reg ⟨.plain sp.1, sp.2.1⟩ sp.2.2).1 rest

/-- Concatenation of the images of `f`. -/
def catMap (f : α → List β) : List α → List β
  | [] => []
  | a :: l => f a ++ catMap f l

/-- The registry block one chain specification contributes. -/
def specBlock (sp : ChainSpec) : List (Nat × Entry) :=
  if sp.2.2.isEmpty then []
  else (sp.1, (0, none)) :: chainBlock (some sp.1) 0 sp.2.2

/-! ## Runtime behavior of wrapped callables -/

/-- Opaque domain of runtime argument/result values. -/
abbrev Val := Nat

/-- A Python `kwargs` dictionary (insertion-ordered). -/
abbrev Kwargs := List (String × Val)

/-- Python dict assignment `kwargs[name] = item`. -/
def kwSet : Kwargs → String → Val → Kwargs
  | [], k, v => [(k, v)]
  | (k', v') :: r, k, v => if k' = k then (k, v) :: r else (k', v') :: kwSet r k v

/-- The call-time behavior of the `run` override of one decorator unit: the base
class is a pure pass-through; argument-injecting units (such as the test
suite `ArgDec` class) set one keyword and forward. -/
inductive Behavior where
  | pass
  | injectKw (name : String) (v : Val)

/-- A runtime callable: a plain target with an opaque body, or an `execute`
wrapper delegating to `run` of the unit it closes over. -/
inductive RFun where
  | target (body : List Val → Kwargs → Val)
  | wrap (b : Behavior) (inner : RFun)

/-- Invoking a callable: `execute` calls `self.run(self.func, *args,
**kwargs)` (and the base `teardown`, a no-op), `run` forwards to the inner
callable after applying the behavior of the unit. -/
def callF : RFun → List Val → Kwargs → Val
  | .target body, args, kw => body args kw
  | .wrap .pass inner, args, kw => callF inner args kw
  | .wrap (.injectKw n v) inner, args, kw => callF inner args (kwSet kw n v)

/-- Embedding of `StackDecorator.run`: starting from `self.func`, apply every member
decorator in order (each application produces a fresh wrapper), then invoke
the resulting callable with the original arguments. -/
def stackRunCall (decs : List Behavior) (selfFunc : RFun) (args : List Val) (kw : Kwargs) :
    Val :=
  callF (decs.foldl (fun f b => RFun.wrap b f) selfFunc) args kw

theorem Sig.ext_param {s t : Sig} (h : s.parameters = t.parameters) : s = t := by
  cases s; cases t; cases h; rfl

@[simp] theorem rget_nil (a : Nat) : rget [] a = none := rfl

@[simp] theorem rget_cons_self (r : Registry) (k : Nat) (v : Entry) :
    rget ((k, v) :: r) k = some v := by
  simp [rget]

theorem rget_cons_ne (r : Registry) (k a : Nat) (v : Entry) (h : k ≠ a) :
    rget ((k, v) :: r) a = rget r a := by
  simp [rget, h]

theorem rget_append_right (r1 r2 : Registry) (a : Nat) (h : a ∉ keys r1) :
    rget (r1 ++ r2) a = rget r2 a := by
  induction r1 with
  | nil => rfl
  | cons p r ih =>
    simp only [keys, List.map_cons, List.mem_cons] at h
    push_neg at h
    cases p with
    | mk k v =>
      rw [List.cons_append, rget_cons_ne _ _ _ _ (by simpa using (Ne.symm h.1))]
      exact ih (by simpa [keys] using h.2)

theorem rset_fresh (r : Registry) (k : Nat) (v : Entry) (h : k ∉ keys r) :
    rset r k v = r ++ [(k, v)] := by
  induction r with
  | nil => rfl
  | cons p r ih =>
    simp only [keys, List.map_cons, List.mem_cons] at h
    push_neg at h
    cases p with
    | mk k' v' =>
      simp only [rset, if_neg (Ne.symm h.1), List.cons_append]
      rw [ih (by simpa [keys] using h.2)]

@[simp] theorem keys_append (r1 r2 : Registry) :
    keys (r1 ++ r2) = keys r1 ++ keys r2 := by
  simp [keys]

@[simp] theorem chainBlock_nil (b : Option Nat) (c : Nat) : chainBlock b c [] = [] := rfl

@[simp] theorem chainBlock_cons (b : Option Nat) (c : Nat) (dw : DecU × Nat)
    (rest : List (DecU × Nat)) :
    chainBlock b c (dw :: rest) = (dw.1.addr, (c + 1, b)) :: chainBlock b (c + 1) rest := rfl

theorem keys_chainBlock (b : Option Nat) (ds : List (DecU × Nat)) : ∀ c,
    keys (chainBlock b c ds) = ds.map (fun dw => dw.1.addr) := by
  induction ds with
  | nil => intro c; rfl
  | cons dw rest ih => intro c; simp [keys, chainBlock] at ih ⊢; exact ih (c + 1)

theorem mem_chainBlock_base (b : Option Nat) (ds : List (DecU × Nat)) : ∀ c p,
    p ∈ chainBlock b c ds → p.2.2 = b := by
  induction ds with
  | nil => intro c p h; simp at h
  | cons dw rest ih =>
    intro c p h
    rw [chainBlock_cons, List.mem_cons] at h
    rcases h with h | h
    · rw [h]
    · exact ih (c + 1) p h

theorem rget_chainBlock (b : Option Nat) (ds : List (DecU × Nat)) : ∀ (c i : Nat)
    (hi : i < ds.length), (ds.map (fun dw => dw.1.addr)).Nodup →
    rget (chainBlock b c ds) (ds[i].1.addr) = some (c + 1 + i, b) := by
  induction ds with
  | nil => intro c i hi; simp at hi
  | cons dw rest ih =>
    intro c i hi hnd
    simp only [List.map_cons, List.nodup_cons] at hnd
    cases i with
    | zero => simp [chainBlock]
    | succ j =>
      have hj : j < rest.length := by simpa using hi
      have hne : dw.1.addr ≠ rest[j].1.addr := by
        intro h
        exact hnd.1 (h ▸ List.mem_map_of_mem (fun dw => dw.1.addr) (rest.get_mem j hj))
      rw [chainBlock_cons, List.getElem_cons_succ, rget_cons_ne _ _ _ _ hne, ih (c + 1) j hj hnd.2]
      congr 2
      omega

theorem chainBlock_any_higher (b b2 : Option Nat) (ds : List (DecU × Nat)) : ∀ (c m : Nat),
    ((chainBlock b c ds).any (fun p => decide (p.2.2 = b2 ∧ m < p.2.1)) = true)
      ↔ (b = b2 ∧ m < c + ds.length ∧ ds ≠ []) := by
  induction ds with
  | nil => intro c m; simp
  | cons dw rest ih =>
    intro c m
    rw [chainBlock_cons, List.any_cons]
    simp only [Bool.or_eq_true, decide_eq_true_eq, ih (c + 1) m, List.length_cons]
    constructor
    · rintro (⟨hb, hm⟩ | ⟨hb, hm, _⟩)
      · exact ⟨hb, by omega, by simp⟩
      · exact ⟨hb, by omega, by simp⟩
    · rintro ⟨hb, hm, -⟩
      by_cases hc : m < c + 1
      · exact Or.inl ⟨hb, hc⟩
      · refine Or.inr ⟨hb, by omega, ?_⟩
        intro h
        rw [h] at hm
        simp at hm
        omega

theorem chainBlock_map_depth (b : Option Nat) (ds : List (DecU × Nat)) : ∀ c,
    (chainBlock b c ds).map (fun p => p.2.1 - 1) = List.range' c ds.length := by
  induction ds with
  | nil => intro c; rfl
  | cons dw rest ih =>
    intro c
    rw [chainBlock_cons, List.map_cons, List.length_cons, List.range'_succ, ih (c + 1)]
    simp

theorem chainBlock_filter_self (b : Option Nat) (ds : List (DecU × Nat)) (c : Nat) :
    (chainBlock b c ds).filter (fun p => decide (p.2.2 = b)) = chainBlock b c ds :=
  List.filter_eq_self.mpr (fun p hp => by simp [mem_chainBlock_base b ds c p hp])

theorem chainBlock_filter_ne (b b2 : Option Nat) (ds : List (DecU × Nat)) (c : Nat)
    (h : b2 ≠ b) : (chainBlock b c ds).filter (fun p => decide (p.2.2 = b2)) = [] :=
  List.filter_eq_nil_iff.mpr (fun p hp => by
    simp only [decide_eq_true_eq]
    rw [mem_chainBlock_base b ds c p hp]
    exact fun hc => h hc.symm)

/-- Extending an existing chain: if the target is a wrapper whose decorator
has registry entry `(c, b)` and all the new unit identities are fresh, the
new entries are appended as `chainBlock b c`, and the decorator of the final wrapper holds the top count `c + ds.length`. -/
theorem applyChain_wrapped (ds : List (DecU × Nat)) :
    ∀ (reg : Registry) (f : FVal) (w a : Nat) (inner : FShape) (c : Nat) (b : Option Nat),
    f.shape = .wrapped w a inner →
    rget reg a = some (c, b) →
    (∀ dw ∈ ds, dw.1.addr ∉ keys reg) →
    (ds.map (fun dw => dw.1.addr)).Nodup →
    (applyChain reg f ds).1 = reg ++ chainBlock b c ds ∧
      ∃ w2 a2 inner2, (applyChain reg f ds).2.shape = .wrapped w2 a2 inner2 ∧
        rget (applyChain reg f ds).1 a2 = some (c + ds.length, b) := by
  induction ds with
  | nil =>
    intro reg f w a inner c b hsh hget _ _
    exact ⟨by simp [applyChain], w, a, inner, hsh, by simpa [applyChain] using hget⟩
  | cons dw rest ih =>
    intro reg f w a inner c b hsh hget hfresh hnd
    simp only [List.map_cons, List.nodup_cons] at hnd
    have hstep : (applyDec reg dw.1 dw.2 f).1 = reg ++ [(dw.1.addr, (c + 1, b))] := by
      simp only [applyDec, increaseCount, hsh, findClosure, hget]
      exact rset_fresh reg dw.1.addr (c + 1, b) (hfresh dw (by simp))
    have hshape : (applyDec reg dw.1 dw.2 f).2.shape = .wrapped dw.2 dw.1.addr f.shape := rfl
    have hget2 : rget (applyDec reg dw.1 dw.2 f).1 dw.1.addr = some (c + 1, b) := by
      rw [hstep, rget_append_right _ _ _ (hfresh dw (by simp)), rget_cons_self]
    have hfresh2 : ∀ e ∈ rest, e.1.addr ∉ keys (applyDec reg dw.1 dw.2 f).1 := by
      intro e he
      rw [hstep, keys_append]
      simp only [keys, List.map_cons, List.map_nil, List.mem_append, List.mem_singleton]
      rintro (hk | hk)
      · exact hfresh e (by simp [he]) (by simpa [keys] using hk)
      · exact hnd.1 (hk ▸ List.mem_map_of_mem (fun dw => dw.1.addr) he)
    obtain ⟨hreg, w2, a2, inner2, hsh2, hget3⟩ :=
      ih (applyDec reg dw.1 dw.2 f).1 (applyDec reg dw.1 dw.2 f).2 dw.2 dw.1.addr f.shape
        (c + 1) b hshape hget2 hfresh2 hnd.2
    refine ⟨?_, w2, a2, inner2, by simpa [applyChain] using hsh2, ?_⟩
    · show (applyChain (applyDec reg dw.1 dw.2 f).1 (applyDec reg dw.1 dw.2 f).2 rest).1 = _
      rw [hreg, hstep, chainBlock_cons, List.append_assoc]
      rfl
    · show rget (applyChain (applyDec reg dw.1 dw.2 f).1 (applyDec reg dw.1 dw.2 f).2 rest).1 a2
        = _
      rw [hget3]
      congr 2
      simp
      omega

/-- Starting a fresh chain on a plain target: the base entry `(0, None)` is
created, followed by `chainBlock (some fid) 0`. -/
theorem applyChain_plain (dw : DecU × Nat) (rest : List (DecU × Nat))
    (reg : Registry) (fid : Nat) (s : Sig)
    (hfid : fid ∉ keys reg)
    (hfresh : ∀ e ∈ dw :: rest, e.1.addr ∉ keys reg)
    (hnd : (fid :: (dw :: rest).map (fun e => e.1.addr)).Nodup) :
    (applyChain reg ⟨.plain fid, s⟩ (dw :: rest)).1
      = reg ++ (fid, (0, none)) :: chainBlock (some fid) 0 (dw :: rest) := by
  rw [List.map_cons, List.nodup_cons] at hnd
  have hnd2 := hnd.2
  rw [List.nodup_cons] at hnd2
  have hne : dw.1.addr ≠ fid := fun h => hnd.1 (by rw [← h]; exact List.mem_cons_self _ _)
  have hstep : (applyDec reg dw.1 dw.2 ⟨.plain fid, s⟩).1
      = reg ++ [(fid, (0, none)), (dw.1.addr, (1, some fid))] := by
    simp only [applyDec, increaseCount, findClosure, fshapeId]
    rw [rset_fresh reg fid (0, none) hfid,
      rset_fresh _ dw.1.addr (1, some fid)
        (by
          rw [keys_append]
          simp only [keys, List.map_cons, List.map_nil, List.mem_append, List.mem_singleton]
          rintro (hk | hk)
          · exact hfresh dw (by simp) (by simpa [keys] using hk)
          · exact hne hk),
      List.append_assoc]
    rfl
  have hget2 : rget (applyDec reg dw.1 dw.2 ⟨.plain fid, s⟩).1 dw.1.addr = some (1, some fid) := by
    rw [hstep, rget_append_right, rget_cons_ne _ _ _ _ hne.symm, rget_cons_self]
    exact hfresh dw (by simp)
  have hfresh2 : ∀ e ∈ rest, e.1.addr ∉ keys (applyDec reg dw.1 dw.2 ⟨.plain fid, s⟩).1 := by
    intro e he
    rw [hstep, keys_append]
    simp only [keys, List.map_cons, List.map_nil, List.mem_append, List.mem_cons,
      List.mem_singleton, List.not_mem_nil, or_false]
    rintro (hk | hk | hk)
    · exact hfresh e (List.mem_cons_of_mem dw he) (by simpa [keys] using hk)
    · refine hnd.1 (List.mem_cons_of_mem _ ?_)
      rw [← hk]
      exact List.mem_map_of_mem (fun dw => dw.1.addr) he
    · exact hnd2.1 (hk ▸ List.mem_map_of_mem (fun dw => dw.1.addr) he)
  obtain ⟨hreg, -⟩ :=
    applyChain_wrapped rest (applyDec reg dw.1 dw.2 ⟨.plain fid, s⟩).1
      (applyDec reg dw.1 dw.2 ⟨.plain fid, s⟩).2 dw.2 dw.1.addr (.plain fid) 1 (some fid)
      rfl hget2 hfresh2 hnd2.2
  show (applyChain (applyDec reg dw.1 dw.2 _).1 (applyDec reg dw.1 dw.2 _).2 rest).1 = _
  rw [hreg, hstep, chainBlock_cons, List.append_assoc]
  rfl

/-- The registry after building a single chain from an empty registry. -/
theorem chain_registry_closed (fid : Nat) (s : Sig) (ds : List (DecU × Nat))
    (hnd : (fid :: ds.map (fun dw => dw.1.addr)).Nodup) (hne : ds ≠ []) :
    (applyChain [] ⟨.plain fid, s⟩ ds).1
      = (fid, (0, none)) :: chainBlock (some fid) 0 ds := by
  cases ds with
  | nil => exact absurd rfl hne
  | cons dw rest =>
    simpa using applyChain_plain dw rest [] fid s (by simp [keys]) (by simp [keys]) hnd

/-- After a chain of `N` fresh units is built around a plain target, starting
from an empty registry, the unit applied at (0-based) position `i` reports
`level = i`. -/
theorem chain_level (fid : Nat) (s : Sig) (ds : List (DecU × Nat))
    (hnd : (fid :: ds.map (fun dw => dw.1.addr)).Nodup) (i : Nat) (hi : i < ds.length) :
    levelOf (applyChain [] ⟨.plain fid, s⟩ ds).1 (some (ds[i].1.addr)) = some (i : Int) := by
  have hne : ds ≠ [] := by rintro rfl; simp at hi
  rw [chain_registry_closed fid s ds hnd hne]
  rw [List.nodup_cons] at hnd
  have hanf : ds[i].1.addr ≠ fid := by
    intro h
    exact hnd.1 (h ▸ List.mem_map_of_mem (fun dw => dw.1.addr) (ds.get_mem i hi))
  rw [levelOf, rget_cons_ne _ _ _ _ (Ne.symm hanf),
    rget_chainBlock (some fid) ds 0 i hi hnd.2]
  simp only [Option.map_some']
  congr 1
  push_cast
  omega

/-- After the full chain is built, the unit at position `i` reports
`is_first_decorator = true` exactly when it is the last unit applied. -/
theorem chain_isFirst (fid : Nat) (s : Sig) (ds : List (DecU × Nat))
    (hnd : (fid :: ds.map (fun dw => dw.1.addr)).Nodup) (i : Nat) (hi : i < ds.length) :
    isFirstDec (applyChain [] ⟨.plain fid, s⟩ ds).1 (some (ds[i].1.addr))
      = some (decide (i + 1 = ds.length)) := by
  have hne : ds ≠ [] := by rintro rfl; simp at hi
  rw [chain_registry_closed fid s ds hnd hne]
  rw [List.nodup_cons] at hnd
  have hanf : ds[i].1.addr ≠ fid := by
    intro h
    exact hnd.1 (h ▸ List.mem_map_of_mem (fun dw => dw.1.addr) (ds.get_mem i hi))
  have hrget : rget ((fid, (0, none)) :: chainBlock (some fid) 0 ds) (ds[i].1.addr)
      = some (0 + 1 + i, some fid) := by
    rw [rget_cons_ne _ _ _ _ (Ne.symm hanf), rget_chainBlock (some fid) ds 0 i hi hnd.2]
  rw [isFirstDec, hrget]
  show some (!((fid, (0, none)) :: chainBlock (some fid) 0 ds).any
      (fun p => decide (p.2.2 = some fid ∧ 0 + 1 + i < p.2.1)))
    = some (decide (i + 1 = ds.length))
  have hany : (((fid, (0, none)) :: chainBlock (some fid) 0 ds).any
      (fun p => decide (p.2.2 = some fid ∧ 0 + 1 + i < p.2.1)))
      = decide (i + 1 < ds.length) := by
    rw [List.any_cons]
    have hhead : decide (((fid, ((0 : Nat), (none : Option Nat))) : Nat × Entry).2.2 = some fid
        ∧ 0 + 1 + i < ((fid, ((0 : Nat), (none : Option Nat))) : Nat × Entry).2.1) = false := by
      simp
    rw [hhead, Bool.false_or]
    have hb := chainBlock_any_higher (some fid) (some fid) ds 0 (0 + 1 + i)
    by_cases h : i + 1 < ds.length
    · rw [hb.mpr ⟨rfl, by omega, hne⟩]
      exact (decide_eq_true h).symm
    · have hblock : (chainBlock (some fid) 0 ds).any
          (fun p => decide (p.2.2 = some fid ∧ 0 + 1 + i < p.2.1)) = false := by
        rcases Bool.eq_false_or_eq_true ((chainBlock (some fid) 0 ds).any
          (fun p => decide (p.2.2 = some fid ∧ 0 + 1 + i < p.2.1))) with ht | hf
        · obtain ⟨-, hm, -⟩ := hb.mp ht
          exact absurd hm (by omega)
        · exact hf
      rw [hblock]
      exact (decide_eq_false h).symm
  rw [hany]
  congr 1
  by_cases h : i + 1 = ds.length
  · rw [decide_eq_true h, decide_eq_false (by omega : ¬ i + 1 < ds.length)]
    rfl
  · rw [decide_eq_false h, decide_eq_true (by omega : i + 1 < ds.length)]
    rfl

/-- Splitting a chain application at any point. -/
theorem applyChain_append (l1 l2 : List (DecU × Nat)) : ∀ (reg : Registry) (f : FVal),
    applyChain reg f (l1 ++ l2)
      = applyChain (applyChain reg f l1).1 (applyChain reg f l1).2 l2 := by
  induction l1 with
  | nil => intro reg f; rfl
  | cons dw rest ih => intro reg f; rw [List.cons_append]; exact ih _ _

/-! ## Algebra of the signature projector -/

/-- The projector `__modify_sig` is extensionally the filter that drops the parameters
whose name occurs in `kws` (the pre-restriction of `kws` to present names
changes nothing). -/
theorem modifySig_parameters (s : Sig) (kws : List String) :
    (modifySig s kws).parameters = s.parameters.filter (fun p => decide (p.name ∉ kws)) := by
  rw [modifySig]
  by_cases h : (kws.filter (fun kw => decide (kw ∈ s.names))).isEmpty
  · rw [if_pos h]
    rw [List.isEmpty_iff, List.filter_eq_nil_iff] at h
    refine (List.filter_eq_self.mpr ?_).symm
    intro p hp
    simp only [decide_eq_true_eq]
    intro hmem
    exact h p.name hmem (by simp [Sig.names, List.mem_map]; exact ⟨p, hp, rfl⟩)
  · rw [if_neg h]
    refine List.filter_congr ?_
    intro p hp
    have hiff : p.name ∈ kws.filter (fun kw => decide (kw ∈ s.names)) ↔ p.name ∈ kws := by
      rw [List.mem_filter]
      simp only [decide_eq_true_eq]
      constructor
      · exact fun hc => hc.1
      · intro hk
        refine ⟨hk, ?_⟩
        simp only [Sig.names, List.mem_map]
        exact ⟨p, hp, rfl⟩
    exact decide_eq_decide.mpr (not_congr hiff)

/-- Removing names that are all absent from the signature is a no-op (the
very signature object is returned). -/
theorem modifySig_absent (s : Sig) (kws : List String) (h : ∀ kw ∈ kws, kw ∉ s.names) :
    modifySig s kws = s := by
  rw [modifySig]
  have hnil : (kws.filter fun kw => decide (kw ∈ s.names)) = [] :=
    List.filter_eq_nil_iff.mpr (fun kw hk => by simpa using h kw hk)
  simp [hnil]

/-- The names surviving a projection are never in the removal set. -/
theorem not_mem_of_mem_modifySig_names (s : Sig) (kws : List String) (x : String)
    (hx : x ∈ (modifySig s kws).names) : x ∉ kws := by
  rw [Sig.names, modifySig_parameters] at hx
  obtain ⟨p, hp, rfl⟩ := List.mem_map.mp hx
  have := (List.mem_filter.mp hp).2
  simpa using this

/-- Projection is idempotent for a fixed removal set. -/
theorem modifySig_idem (s : Sig) (kws : List String) :
    modifySig (modifySig s kws) kws = modifySig s kws :=
  modifySig_absent _ kws (fun kw hk hmem =>
    not_mem_of_mem_modifySig_names s kws kw hmem hk)

/-- Any variadic name of a projected signature was a variadic name of the
original signature. -/
theorem varNames_modifySig_subset (s : Sig) (kws : List String) (x : String)
    (hx : x ∈ varNames (modifySig s kws)) : x ∈ varNames s := by
  rw [varNames, modifySig_parameters, List.filter_filter] at hx
  obtain ⟨p, hp, rfl⟩ := List.mem_map.mp hx
  have hp2 := List.mem_filter.mp hp
  exact List.mem_map_of_mem Param.name
    (List.mem_filter.mpr ⟨hp2.1, by
      have := hp2.2
      rw [Bool.and_eq_true] at this
      exact this.1⟩)

/-- Stripping `kw1` plus the catch-alls, then `kw2` plus the (now empty set
of) remaining catch-alls, equals stripping `kw1 ++ kw2` plus the original
catch-alls in one pass: catch-all removal is effectively performed once. -/
theorem modifySig_strip_twice (s : Sig) (kw1 kw2 : List String) :
    modifySig (modifySig s (kw1 ++ varNames s))
        (kw2 ++ varNames (modifySig s (kw1 ++ varNames s)))
      = modifySig s ((kw1 ++ kw2) ++ varNames s) := by
  apply Sig.ext_param
  rw [modifySig_parameters, modifySig_parameters, modifySig_parameters, List.filter_filter]
  refine List.filter_congr ?_
  intro p hp
  rw [← Bool.decide_and]
  refine decide_eq_decide.mpr ?_
  simp only [List.mem_append, not_or]
  constructor
  · rintro ⟨⟨h2, hv1⟩, h1, hv⟩
    exact ⟨⟨h1, h2⟩, hv⟩
  · rintro ⟨⟨h1, h2⟩, hv⟩
    exact ⟨⟨h2, fun hm => hv (varNames_modifySig_subset s (kw1 ++ varNames s) p.name hm)⟩,
      h1, hv⟩

@[simp] theorem catMap_nil (f : α → List β) : catMap f [] = [] := rfl

@[simp] theorem catMap_cons (f : α → List β) (a : α) (l : List α) :
    catMap f (a :: l) = f a ++ catMap f l := rfl

theorem mem_catMap {f : α → List β} {b : β} : ∀ {l : List α},
    b ∈ catMap f l ↔ ∃ a ∈ l, b ∈ f a := by
  intro l
  induction l with
  | nil => simp
  | cons a l ih => simp [ih]

theorem catMap_eq_nil (f : α → List β) : ∀ (l : List α), (∀ a ∈ l, f a = []) →
    catMap f l = [] := by
  intro l
  induction l with
  | nil => intro _; rfl
  | cons a l ih =>
    intro h
    rw [catMap_cons, h a (by simp), List.nil_append]
    exact ih (fun a ha => h a (by simp [ha]))

theorem filter_catMap (q : β → Bool) (f : α → List β) : ∀ (l : List α),
    (catMap f l).filter q = catMap (fun a => (f a).filter q) l := by
  intro l
  induction l with
  | nil => rfl
  | cons a l ih => rw [catMap_cons, List.filter_append, ih]; rfl

theorem mem_specBlock_base (sp : ChainSpec) (p : Nat × Entry) (hp : p ∈ specBlock sp) :
    p.2.2 = none ∨ p.2.2 = some sp.1 := by
  rw [specBlock] at hp
  by_cases h : sp.2.2.isEmpty
  · rw [if_pos h] at hp; simp at hp
  · rw [if_neg h, List.mem_cons] at hp
    rcases hp with hp | hp
    · rw [hp]
      exact Or.inl rfl
    · exact Or.inr (mem_chainBlock_base _ _ _ _ hp)

theorem keys_specBlock_subset (sp : ChainSpec) (k : Nat) (hk : k ∈ keys (specBlock sp)) :
    k ∈ specIds sp := by
  rw [specBlock] at hk
  by_cases h : sp.2.2.isEmpty
  · rw [if_pos h] at hk; simp [keys] at hk
  · rw [if_neg h] at hk
    simp only [keys, List.map_cons, List.mem_cons] at hk
    rcases hk with hk | hk
    · exact hk ▸ List.mem_cons_self _ _
    · rw [specIds, List.mem_cons]
      refine Or.inr ?_
      have hk2 : k ∈ keys (chainBlock (some sp.1) 0 sp.2.2) := hk
      rw [keys_chainBlock] at hk2
      exact hk2

theorem specBlock_filter_self (sp : ChainSpec) :
    (specBlock sp).filter (fun p => decide (p.2.2 = some sp.1))
      = chainBlock (some sp.1) 0 sp.2.2 := by
  rw [specBlock]
  by_cases h : sp.2.2.isEmpty
  · rw [if_pos h]
    rw [List.isEmpty_iff] at h
    rw [h]
    rfl
  · rw [if_neg h, List.filter_cons]
    simp only [decide_eq_true_eq]
    rw [if_neg (by simp)]
    exact chainBlock_filter_self _ _ _

theorem specBlock_filter_ne (sp : ChainSpec) (fid : Nat) (h : fid ≠ sp.1) :
    (specBlock sp).filter (fun p => decide (p.2.2 = some fid)) = [] := by
  refine List.filter_eq_nil_iff.mpr (fun p hp => ?_)
  simp only [decide_eq_true_eq]
  rcases mem_specBlock_base sp p hp with hb | hb <;> rw [hb]
  · simp
  · simp only [Option.some.injEq]
    exact fun hc => h hc.symm

/-- Closed form of the registry after building a list of chains with globally
fresh, pairwise distinct identities. -/
theorem buildChains_closed : ∀ (specs : List ChainSpec) (reg : Registry),
    (∀ k ∈ catMap specIds specs, k ∉ keys reg) →
    (catMap specIds specs).Nodup →
    buildChains reg specs = reg ++ catMap specBlock specs := by
  intro specs
  induction specs with
  | nil => intro reg _ _; simp [buildChains]
  | cons sp rest ih =>
    intro reg hfresh hnd
    rw [catMap_cons] at hnd
    obtain ⟨hnd1, hnd2, hdisj⟩ := List.nodup_append.mp hnd
    obtain ⟨fid, s, ds⟩ := sp
    cases ds with
    | nil =>
      rw [buildChains]
      show buildChains (applyChain reg ⟨.plain fid, s⟩ []).1 rest = _
      rw [catMap_cons]
      have hblock : specBlock (fid, s, ([] : List (DecU × Nat))) = [] := rfl
      rw [hblock, List.nil_append]
      exact ih reg (fun k hk => hfresh k (by rw [catMap_cons]; exact List.mem_append_right _ hk))
        hnd2
    | cons dw rest2 =>
      rw [buildChains]
      have hids : ∀ k ∈ specIds (fid, s, dw :: rest2), k ∉ keys reg := fun k hk =>
        hfresh k (by rw [catMap_cons]; exact List.mem_append_left _ hk)
      have hreg1 : (applyChain reg ⟨.plain fid, s⟩ (dw :: rest2)).1
          = reg ++ specBlock (fid, s, dw :: rest2) := by
        rw [applyChain_plain dw rest2 reg fid s
          (hids fid (List.mem_cons_self _ _))
          (fun e he => hids e.1.addr (List.mem_cons_of_mem _
            (List.mem_map_of_mem (fun dw => dw.1.addr) he)))
          hnd1]
        rfl
      rw [hreg1, ih (reg ++ specBlock (fid, s, dw :: rest2))
        (fun k hk => by
          rw [keys_append, List.mem_append]
          rintro (hc | hc)
          · exact hfresh k (by rw [catMap_cons]; exact List.mem_append_right _ hk) hc
          · exact hdisj (keys_specBlock_subset _ k hc) hk)
        hnd2, catMap_cons, List.append_assoc]

/-! ## Helper facts for the keyword list of the stack composite -/

theorem foldl_append_eq (ms : List (List String)) : ∀ (init : List String),
    ms.foldl (fun kws l => kws ++ l) init = init ++ catMap id ms := by
  induction ms with
  | nil => intro init; simp
  | cons m rest ih =>
    intro init
    rw [List.foldl_cons, ih (init ++ m), catMap_cons, List.append_assoc]
    rfl

theorem count_catMap_id (x : String) : ∀ ms : List (List String),
    (catMap id ms).count x = (ms.map (List.count x)).sum := by
  intro ms
  induction ms with
  | nil => rfl
  | cons m rest ih =>
    rw [catMap_cons, List.count_append, List.map_cons, List.sum_cons, ih]
    rfl

/-! ## The claims -/

set_option maxHeartbeats 2000000 in
/-- C1: for a target declared `(a, b, *args, **kwargs)` and two masking units
applied in sequence (inner injecting `x`, outer injecting `y`), the composed
signature attached to the final wrapper is exactly `(a, b)`, and the outer
layer removed nothing beyond what the inner layer had already removed (the
catch-alls are stripped only once). -/
theorem claim1_two_unit_signature_purity (aa ab av ak : String)
    (da db dv dk : Option String) :
    ((applyChain [] ⟨.plain 0, ⟨[⟨"a", .posOrKw, aa, da⟩, ⟨"b", .posOrKw, ab, db⟩,
        ⟨"args", .varPos, av, dv⟩, ⟨"kwargs", .varKw, ak, dk⟩]⟩⟩
        [(⟨1, ["x"], true⟩, 10), (⟨2, ["y"], true⟩, 11)]).2).sigv
      = ⟨[⟨"a", .posOrKw, aa, da⟩, ⟨"b", .posOrKw, ab, db⟩]⟩ ∧
    ((applyChain [] ⟨.plain 0, ⟨[⟨"a", .posOrKw, aa, da⟩, ⟨"b", .posOrKw, ab, db⟩,
        ⟨"args", .varPos, av, dv⟩, ⟨"kwargs", .varKw, ak, dk⟩]⟩⟩
        [(⟨1, ["x"], true⟩, 10), (⟨2, ["y"], true⟩, 11)]).2).sigv
      = ((applyChain [] ⟨.plain 0, ⟨[⟨"a", .posOrKw, aa, da⟩, ⟨"b", .posOrKw, ab, db⟩,
        ⟨"args", .varPos, av, dv⟩, ⟨"kwargs", .varKw, ak, dk⟩]⟩⟩
        [(⟨1, ["x"], true⟩, 10)]).2).sigv := by
  constructor
  · rfl
  · rfl

/-- C6 (amended): for a target `(req)`, applying unit E injecting
`logger`/`logs` keeps signature `(req)` on the wrapper of E, but wrapping it
further in a unit with `mask_signature = False` exposes the raw
`(*args, **kwargs)` wrapper signature, since no `__signature__` is attached
by the unmasked layer. -/
theorem claim6_unmasked_outer_exposes_raw_sig (ra : String) (rd : Option String) :
    ((applyChain [] ⟨.plain 0, ⟨[⟨"req", .posOrKw, ra, rd⟩]⟩⟩
        [(⟨1, ["logger", "logs"], true⟩, 10)]).2).sigv = ⟨[⟨"req", .posOrKw, ra, rd⟩]⟩ ∧
    ((applyChain [] ⟨.plain 0, ⟨[⟨"req", .posOrKw, ra, rd⟩]⟩⟩
        [(⟨1, ["logger", "logs"], true⟩, 10), (⟨2, [], false⟩, 11)]).2).sigv = execSig :=
  ⟨rfl, rfl⟩

/-- C6 counterexample: the claim that the final externally visible signature
is exactly `(req)` fails at this concrete input — the outer unmasked wrapper
reports the raw `(*args, **kwargs)` signature instead. -/
theorem claim6_counterexample :
    ¬ ((applyChain [] ⟨.plain 0, ⟨[⟨"req", .posOrKw, "HttpRequest", none⟩]⟩⟩
        [(⟨1, ["logger", "logs"], true⟩, 10), (⟨2, [], false⟩, 11)]).2).sigv
      = ⟨[⟨"req", .posOrKw, "HttpRequest", none⟩]⟩ := by decide

/-- C7: signature projection is pure: idempotent for a fixed removal set,
a silent no-op on absent names, and every retained parameter keeps its exact
declaration (the result is a sublist of the original parameter list). -/
theorem claim7_projection_pure (s : Sig) (kws : List String) :
    modifySig (modifySig s kws) kws = modifySig s kws ∧
    ((∀ kw ∈ kws, kw ∉ s.names) → modifySig s kws = s) ∧
    List.Sublist (modifySig s kws).parameters s.parameters :=
  ⟨modifySig_idem s kws, modifySig_absent s kws, by
    rw [modifySig_parameters]
    exact List.filter_sublist _⟩

/-- Witness for C7 at a concrete signature and removal set. -/
theorem claim7_projection_pure_witness :
    modifySig (modifySig ⟨[⟨"a", .posOrKw, "", none⟩]⟩ ["b"]) ["b"]
      = modifySig ⟨[⟨"a", .posOrKw, "", none⟩]⟩ ["b"] ∧
    modifySig ⟨[⟨"a", .posOrKw, "", none⟩]⟩ ["b"] = ⟨[⟨"a", .posOrKw, "", none⟩]⟩ :=
  ⟨(claim7_projection_pure ⟨[⟨"a", .posOrKw, "", none⟩]⟩ ["b"]).1,
   (claim7_projection_pure ⟨[⟨"a", .posOrKw, "", none⟩]⟩ ["b"]).2.1 (by decide)⟩

/-- C8 (amended): the own `added_kw` of the stack composite is the plain
concatenation of the extra names and every member `added_kw` list, order
preserved but without de-duplication: a name contributed `k` times occurs
`k` times. -/
theorem claim8_stack_added_kw_concat (a : Option (List String)) (ms : List (List String))
    (x : String) :
    stackAddedKw a ms = (a.getD []) ++ catMap id ms ∧
    (stackAddedKw a ms).count x = ((a.getD []).count x) + ((ms.map (List.count x)).sum) := by
  have h1 : stackAddedKw a ms = (a.getD []) ++ catMap id ms := by
    unfold stackAddedKw
    rw [foldl_append_eq ms]
    cases a <;> rfl
  refine ⟨h1, ?_⟩
  rw [h1, List.count_append, count_catMap_id]

/-- C8 counterexample: a name declared by two member units occurs twice in
the composite keyword list — it is not a de-duplicated union. -/
theorem claim8_counterexample :
    stackAddedKw none [["x"], ["x"]] = ["x", "x"] ∧
    ¬ (stackAddedKw none [["x"], ["x"]]).Nodup := by decide

/-- When a masking unit observes `is_first_decorator = True` right after
registering, the signature it attaches strips its `added_kw` plus the
variadic catch-alls of the target. -/
theorem applyDec_sigv_isFirst_true (reg : Registry) (d : DecU) (w : Nat) (f : FVal)
    (hm : d.mask = true)
    (hf : isFirstDec (applyDec reg d w f).1 (some d.addr) = some true) :
    (applyDec reg d w f).2.sigv = modifySig f.sigv (d.added_kw ++ varNames f.sigv) := by
  have hf2 : isFirstDec (increaseCount reg d.addr f.shape) (some d.addr) = some true := hf
  simp only [applyDec, hm, if_true, hf2]
  simp

/-- C2: building a chain of `N` fresh units around one plain target (from an
otherwise uninvolved registry), the unit applied at 0-based position `i`
reports `level = i` (so unit `i+1` of the claim reports `i`), and
`is_first_decorator` is true exactly for the last-applied (outermost) unit. -/
theorem claim2_chain_levels_and_outermost (fid : Nat) (s : Sig) (ds : List (DecU × Nat))
    (hnd : (fid :: ds.map (fun dw => dw.1.addr)).Nodup) (i : Nat) (hi : i < ds.length) :
    levelOf (applyChain [] ⟨.plain fid, s⟩ ds).1 (some (ds[i].1.addr)) = some (i : Int) ∧
    isFirstDec (applyChain [] ⟨.plain fid, s⟩ ds).1 (some (ds[i].1.addr))
      = some (decide (i + 1 = ds.length)) :=
  ⟨chain_level fid s ds hnd i hi, chain_isFirst fid s ds hnd i hi⟩

/-- Witness for C2: two units on one plain target; the outer unit reports
level 1 and is the outermost. -/
theorem claim2_witness :
    levelOf (applyChain [] ⟨.plain 0, ⟨[]⟩⟩ [(⟨1, [], true⟩, 10), (⟨2, [], true⟩, 11)]).1
        (some 2) = some 1 ∧
    isFirstDec (applyChain [] ⟨.plain 0, ⟨[]⟩⟩ [(⟨1, [], true⟩, 10), (⟨2, [], true⟩, 11)]).1
        (some 2) = some true := by
  have h := claim2_chain_levels_and_outermost 0 ⟨[]⟩
    [(⟨1, [], true⟩, 10), (⟨2, [], true⟩, 11)] (by decide) 1 (by decide)
  exact ⟨h.1, h.2⟩

/-- C9: during a single chain build, the unit applied at step `k+1` observes
`is_first_decorator = True` immediately (it momentarily holds the maximum
depth of its chain), and consequently — whenever it masks — the signature it
attaches is computed through the catch-all-stripping branch (its `added_kw`
plus the current variadic names), at its own apply time, not only for the
unit that finally ends up outermost. -/
theorem claim9_strip_branch_each_apply (fid : Nat) (s : Sig) (ds : List (DecU × Nat))
    (hnd : (fid :: ds.map (fun dw => dw.1.addr)).Nodup) (k : Nat) (hk : k < ds.length) :
    isFirstDec (applyChain [] ⟨.plain fid, s⟩ (ds.take (k + 1))).1 (some (ds[k].1.addr))
      = some true ∧
    (ds[k].1.mask = true →
      ((applyChain [] ⟨.plain fid, s⟩ (ds.take (k + 1))).2).sigv
        = modifySig ((applyChain [] ⟨.plain fid, s⟩ (ds.take k)).2).sigv
            (ds[k].1.added_kw
              ++ varNames ((applyChain [] ⟨.plain fid, s⟩ (ds.take k)).2).sigv)) := by
  have hlen : (ds.take (k + 1)).length = k + 1 := by
    rw [List.length_take]
    omega
  have hnd2 : (fid :: (ds.take (k + 1)).map (fun dw => dw.1.addr)).Nodup := by
    refine hnd.sublist ?_
    rw [List.map_take]
    exact List.Sublist.cons₂ fid (List.take_sublist _ _)
  have hk2 : k < (ds.take (k + 1)).length := by omega
  have hgl : (ds.take (k + 1))[k] = ds[k] := List.getElem_take ds
  have h1 : isFirstDec (applyChain [] ⟨.plain fid, s⟩ (ds.take (k + 1))).1
      (some (ds[k].1.addr)) = some true := by
    have h := chain_isFirst fid s (ds.take (k + 1)) hnd2 k hk2
    rw [hgl, hlen] at h
    rw [h]
    simp
  refine ⟨h1, fun hmask => ?_⟩
  have htake : ds.take (k + 1) = ds.take k ++ [ds[k]] := by
    rw [List.take_succ, List.getElem?_eq_getElem hk]
    rfl
  have hstep : applyChain [] ⟨.plain fid, s⟩ (ds.take (k + 1))
      = applyDec (applyChain [] ⟨.plain fid, s⟩ (ds.take k)).1 (ds[k]).1 (ds[k]).2
          (applyChain [] ⟨.plain fid, s⟩ (ds.take k)).2 := by
    rw [htake, applyChain_append]
    rfl
  rw [hstep]
  refine applyDec_sigv_isFirst_true _ _ _ _ hmask ?_
  rw [← hstep]
  exact h1

/-- Witness for C9: one masking unit injecting `p1` on a target
`(req, *args, **kwargs)`; at its own apply time it is outermost and strips
the catch-alls together with its injected name. -/
theorem claim9_witness :
    isFirstDec (applyChain [] ⟨.plain 0, ⟨[⟨"req", .posOrKw, "", none⟩,
        ⟨"args", .varPos, "", none⟩, ⟨"kwargs", .varKw, "", none⟩]⟩⟩
        ([(⟨1, ["p1"], true⟩, 10)].take (0 + 1))).1 (some 1) = some true ∧
    ((applyChain [] ⟨.plain 0, ⟨[⟨"req", .posOrKw, "", none⟩,
        ⟨"args", .varPos, "", none⟩, ⟨"kwargs", .varKw, "", none⟩]⟩⟩
        ([(⟨1, ["p1"], true⟩, 10)].take (0 + 1))).2).sigv
      = modifySig ⟨[⟨"req", .posOrKw, "", none⟩, ⟨"args", .varPos, "", none⟩,
          ⟨"kwargs", .varKw, "", none⟩]⟩
          (["p1"] ++ varNames ⟨[⟨"req", .posOrKw, "", none⟩, ⟨"args", .varPos, "", none⟩,
            ⟨"kwargs", .varKw, "", none⟩]⟩) := by
  have h := claim9_strip_branch_each_apply 0 ⟨[⟨"req", .posOrKw, "", none⟩,
    ⟨"args", .varPos, "", none⟩, ⟨"kwargs", .varKw, "", none⟩]⟩
    [(⟨1, ["p1"], true⟩, 10)] (by decide) 0 (by decide)
  exact ⟨h.1, h.2 rfl⟩

/-- Within the concatenated blocks of disjoint chains, the entries of chain
`fid` are exactly its own block, and their depths are `0 … N-1`. -/
theorem blocks_filter_depths : ∀ (specs : List ChainSpec),
    (catMap specIds specs).Nodup →
    ∀ (fid : Nat) (s : Sig) (ds : List (DecU × Nat)), (fid, s, ds) ∈ specs →
    ((catMap specBlock specs).filter (fun p => decide (p.2.2 = some fid))).map
        (fun p => p.2.1 - 1) = List.range ds.length := by
  intro specs
  induction specs with
  | nil => intro _ fid s ds h; simp at h
  | cons sp rest ih =>
    intro hnd fid s ds hmem
    rw [catMap_cons] at hnd
    obtain ⟨hnd1, hnd2, hdisj⟩ := List.nodup_append.mp hnd
    rw [catMap_cons, List.filter_append, List.map_append]
    rcases List.mem_cons.mp hmem with heq | hmem2
    · subst heq
      have hrest : (catMap specBlock rest).filter (fun p => decide (p.2.2 = some fid)) = [] := by
        refine List.filter_eq_nil_iff.mpr (fun p hp => ?_)
        simp only [decide_eq_true_eq]
        obtain ⟨sp2, hsp2, hpin⟩ := mem_catMap.mp hp
        rcases mem_specBlock_base sp2 p hpin with hb | hb <;> rw [hb]
        · simp
        · simp only [Option.some.injEq]
          intro hcc
          refine hdisj (List.mem_cons_self _ _) ?_
          refine mem_catMap.mpr ⟨sp2, hsp2, ?_⟩
          show fid ∈ specIds sp2
          rw [specIds, hcc]
          exact List.mem_cons_self _ _
      rw [hrest, List.map_nil, List.append_nil]
      have hself : (specBlock ((fid, s, ds) : ChainSpec)).filter
          (fun p => decide (p.2.2 = some fid)) = chainBlock (some fid) 0 ds :=
        specBlock_filter_self (fid, s, ds)
      rw [hself, chainBlock_map_depth (some fid) ds 0, List.range_eq_range']
    · have hne : fid ≠ sp.1 := by
        intro hcc
        have h1 : fid ∈ specIds sp := by
          rw [specIds, ← hcc]
          exact List.mem_cons_self _ _
        exact hdisj h1 (mem_catMap.mpr ⟨(fid, s, ds), hmem2, List.mem_cons_self _ _⟩)
      rw [specBlock_filter_ne sp fid hne, List.map_nil, List.nil_append]
      exact ih hnd2 fid s ds hmem2

/-- C3 (amended): for apply sequences building each chain over its own
fresh plain target with fresh units — i.e. no plain target is decorated by
two separate chains — the depths registered within any single chain id are
exactly `0, 1, …, N-1`: contiguous from 0, no gaps, no duplicates. -/
theorem claim3_chains_depths_contiguous (specs : List ChainSpec)
    (hnd : (catMap specIds specs).Nodup)
    (fid : Nat) (s : Sig) (ds : List (DecU × Nat)) (hmem : (fid, s, ds) ∈ specs) :
    ((buildChains [] specs).filter (fun p => decide (p.2.2 = some fid))).map
        (fun p => p.2.1 - 1) = List.range ds.length := by
  rw [buildChains_closed specs [] (by intro k _ hc; simp [keys] at hc) hnd, List.nil_append]
  exact blocks_filter_depths specs hnd fid s ds hmem

/-- Witness for C3 (amended): two chains over distinct targets; the second
chain has depths exactly `[0, 1]`. -/
theorem claim3_witness :
    ((buildChains [] [(0, ⟨[]⟩, [(⟨1, [], true⟩, 10)]),
        (5, ⟨[]⟩, [(⟨6, [], true⟩, 11), (⟨7, [], true⟩, 12)])]).filter
        (fun p => decide (p.2.2 = some 5))).map (fun p => p.2.1 - 1) = List.range 2 :=
  claim3_chains_depths_contiguous
    [(0, ⟨[]⟩, [(⟨1, [], true⟩, 10)]), (5, ⟨[]⟩, [(⟨6, [], true⟩, 11), (⟨7, [], true⟩, 12)])]
    (by decide) 5 ⟨[]⟩ [(⟨6, [], true⟩, 11), (⟨7, [], true⟩, 12)] (by decide)

/-- C3 counterexample: decorating the *same* plain target with two separate
one-unit chains merges them under one chain id with duplicate depth 0 — the
claimed no-duplicates invariant fails for this legal apply sequence. -/
theorem claim3_counterexample :
    ¬ (((buildChains [] [(0, ⟨[]⟩, [(⟨1, [], true⟩, 10)]),
        (0, ⟨[]⟩, [(⟨2, [], true⟩, 11)])]).filter
        (fun p => decide (p.2.2 = some 0))).map (fun p => p.2.1 - 1)).Nodup := by decide

/-- Overwriting a key with the value it already holds leaves the dictionary
unchanged. -/
theorem rset_eq_of_rget : ∀ (r : Registry) (k : Nat) (v : Entry),
    rget r k = some v → rset r k v = r := by
  intro r
  induction r with
  | nil => intro k v h; simp [rget] at h
  | cons p r ih =>
    intro k v h
    cases p with
    | mk k2 v2 =>
      by_cases hk : k2 = k
      · subst hk
        rw [rget_cons_self] at h
        cases h
        simp [rset]
      · rw [rget_cons_ne _ _ _ _ hk] at h
        simp only [rset, if_neg hk]
        rw [ih k v h]

/-- C4 (amended): `apply` performs no registry consistency check and cannot
fail: starting a second chain on a plain target that already anchors a chain
completes normally and silently records a duplicate count 1 (depth 0) under
the same chain id for both units. -/
theorem claim4_apply_silent_duplicate (reg : Registry) (fid a1 a2 w1 w2 : Nat) (s : Sig)
    (kw1 kw2 : List String) (m1 m2 : Bool)
    (h1 : fid ∉ keys reg) (h2 : a1 ∉ keys reg) (h3 : a2 ∉ keys reg)
    (h12 : a1 ≠ a2) (hf1 : a1 ≠ fid) (hf2 : a2 ≠ fid) :
    rget (applyDec (applyDec reg ⟨a1, kw1, m1⟩ w1 ⟨.plain fid, s⟩).1
        ⟨a2, kw2, m2⟩ w2 ⟨.plain fid, s⟩).1 a1 = some (1, some fid) ∧
    rget (applyDec (applyDec reg ⟨a1, kw1, m1⟩ w1 ⟨.plain fid, s⟩).1
        ⟨a2, kw2, m2⟩ w2 ⟨.plain fid, s⟩).1 a2 = some (1, some fid) := by
  have hreg1 : (applyDec reg ⟨a1, kw1, m1⟩ w1 ⟨.plain fid, s⟩).1
      = reg ++ [(fid, (0, none)), (a1, (1, some fid))] := by
    show increaseCount reg a1 (.plain fid) = _
    rw [increaseCount]
    show rset (rset reg fid (0, none)) a1 (1, some fid) = _
    rw [rset_fresh reg fid (0, none) h1, rset_fresh _ a1 (1, some fid)
      (by
        rw [keys_append]
        simp only [keys, List.map_cons, List.map_nil, List.mem_append, List.mem_singleton,
          List.not_mem_nil, or_false]
        rintro (hc | hc)
        · exact h2 (by simpa [keys] using hc)
        · exact hf1 hc), List.append_assoc]
    rfl
  have hfid1 : rget (applyDec reg ⟨a1, kw1, m1⟩ w1 ⟨.plain fid, s⟩).1 fid
      = some (0, none) := by
    rw [hreg1, rget_append_right _ _ _ h1, rget_cons_self]
  have hreg2 : (applyDec (applyDec reg ⟨a1, kw1, m1⟩ w1 ⟨.plain fid, s⟩).1
      ⟨a2, kw2, m2⟩ w2 ⟨.plain fid, s⟩).1
      = reg ++ [(fid, (0, none)), (a1, (1, some fid)), (a2, (1, some fid))] := by
    show increaseCount _ a2 (.plain fid) = _
    rw [increaseCount]
    show rset (rset _ fid (0, none)) a2 (1, some fid) = _
    rw [rset_eq_of_rget _ fid (0, none) hfid1, hreg1, rset_fresh _ a2 (1, some fid)
      (by
        rw [keys_append]
        simp only [keys, List.map_cons, List.map_nil, List.mem_append, List.mem_cons,
          List.mem_singleton, List.not_mem_nil, or_false]
        rintro (hc | hc | hc)
        · exact h3 (by simpa [keys] using hc)
        · exact hf2 hc
        · exact h12 hc.symm), List.append_assoc]
    rfl
  constructor
  · rw [hreg2, rget_append_right _ _ _ h2,
      rget_cons_ne _ _ _ _ (Ne.symm hf1), rget_cons_self]
  · rw [hreg2, rget_append_right _ _ _ h3,
      rget_cons_ne _ _ _ _ (Ne.symm hf2), rget_cons_ne _ _ _ _ h12, rget_cons_self]

/-- Witness for C4 (amended) at a concrete aliased build. -/
theorem claim4_witness :
    rget (applyDec (applyDec [] ⟨1, [], true⟩ 10 ⟨.plain 0, ⟨[]⟩⟩).1
        ⟨2, [], true⟩ 11 ⟨.plain 0, ⟨[]⟩⟩).1 1 = some (1, some 0) ∧
    rget (applyDec (applyDec [] ⟨1, [], true⟩ 10 ⟨.plain 0, ⟨[]⟩⟩).1
        ⟨2, [], true⟩ 11 ⟨.plain 0, ⟨[]⟩⟩).1 2 = some (1, some 0) :=
  claim4_apply_silent_duplicate [] 0 1 2 10 11 ⟨[]⟩ [] [] true true
    (by decide) (by decide) (by decide) (by decide) (by decide) (by decide)

/-- C4 counterexample: at this concrete input a duplicate depth arises within
one chain id, yet both applications complete normally — the embedding of
`apply` is a total function (the source contains no `raise`, and no
`CompositionError` class exists anywhere in the code), so the claimed
error is never produced; the duplicate state is simply recorded. -/
theorem claim4_counterexample :
    (applyDec (applyDec [] ⟨1, [], true⟩ 10 ⟨.plain 0, ⟨[]⟩⟩).1 ⟨2, [], true⟩ 11
        ⟨.plain 0, ⟨[]⟩⟩).1
      = [(0, (0, none)), (1, (1, some 0)), (2, (1, some 0))] ∧
    levelOf (applyDec (applyDec [] ⟨1, [], true⟩ 10 ⟨.plain 0, ⟨[]⟩⟩).1 ⟨2, [], true⟩ 11
        ⟨.plain 0, ⟨[]⟩⟩).1 (some 1)
      = levelOf (applyDec (applyDec [] ⟨1, [], true⟩ 10 ⟨.plain 0, ⟨[]⟩⟩).1 ⟨2, [], true⟩ 11
        ⟨.plain 0, ⟨[]⟩⟩).1 (some 2) := by decide

/-- C5 (amended): for a stack of two members versus direct nesting of the
same two units around the same target: the call results agree for all
arguments, the composed signatures agree, and the member `level()` /
`is_first_decorator` values agree once the stack-composed callable has been
invoked once (member registration happens inside `run`, at call time). -/
theorem claim5_stack_equivalence_after_first_call (s : Sig) (kw1 kw2 : List String)
    (b1 b2 : Behavior) (t : List Val → Kwargs → Val) (args : List Val) (kw : Kwargs) :
    stackRunCall [b1, b2] (.target t) args kw
      = callF (.wrap b2 (.wrap b1 (.target t))) args kw ∧
    ((stackApply [] 3 none [kw1, kw2] 12 ⟨.plain 0, s⟩).2).sigv
      = ((applyChain [] ⟨.plain 0, s⟩ [(⟨1, kw1, true⟩, 10), (⟨2, kw2, true⟩, 11)]).2).sigv ∧
    (levelOf (stackInvoke (stackApply [] 3 none [kw1, kw2] 12 ⟨.plain 0, s⟩).1 ⟨.plain 0, s⟩
        [(⟨1, kw1, true⟩, 13), (⟨2, kw2, true⟩, 14)]).1 (some 1)
      = levelOf (applyChain [] ⟨.plain 0, s⟩
          [(⟨1, kw1, true⟩, 10), (⟨2, kw2, true⟩, 11)]).1 (some 1)) ∧
    (levelOf (stackInvoke (stackApply [] 3 none [kw1, kw2] 12 ⟨.plain 0, s⟩).1 ⟨.plain 0, s⟩
        [(⟨1, kw1, true⟩, 13), (⟨2, kw2, true⟩, 14)]).1 (some 2)
      = levelOf (applyChain [] ⟨.plain 0, s⟩
          [(⟨1, kw1, true⟩, 10), (⟨2, kw2, true⟩, 11)]).1 (some 2)) ∧
    (isFirstDec (stackInvoke (stackApply [] 3 none [kw1, kw2] 12 ⟨.plain 0, s⟩).1 ⟨.plain 0, s⟩
        [(⟨1, kw1, true⟩, 13), (⟨2, kw2, true⟩, 14)]).1 (some 1)
      = isFirstDec (applyChain [] ⟨.plain 0, s⟩
          [(⟨1, kw1, true⟩, 10), (⟨2, kw2, true⟩, 11)]).1 (some 1)) ∧
    (isFirstDec (stackInvoke (stackApply [] 3 none [kw1, kw2] 12 ⟨.plain 0, s⟩).1 ⟨.plain 0, s⟩
        [(⟨1, kw1, true⟩, 13), (⟨2, kw2, true⟩, 14)]).1 (some 2)
      = isFirstDec (applyChain [] ⟨.plain 0, s⟩
          [(⟨1, kw1, true⟩, 10), (⟨2, kw2, true⟩, 11)]).1 (some 2)) := by
  refine ⟨rfl, ?_, rfl, rfl, rfl, rfl⟩
  exact (modifySig_strip_twice s kw1 kw2).symm

/-- C5 counterexample: immediately after `StackComposite([U1, U2]).apply`,
member U1 has no registry entry and its level is undefined (`None`), whereas
after `U2.apply(U1.apply(target))` U1 reports level 0 — so the produced
callable is not equivalent in the claimed `level()` observations at that
point. -/
theorem claim5_counterexample :
    levelOf (stackApply [] 3 none [["x"], ["y"]] 12 ⟨.plain 0, ⟨[]⟩⟩).1 none = none ∧
    rget (stackApply [] 3 none [["x"], ["y"]] 12 ⟨.plain 0, ⟨[]⟩⟩).1 1 = none ∧
    levelOf (applyChain [] ⟨.plain 0, ⟨[]⟩⟩ [(⟨1, ["x"], true⟩, 10), (⟨2, ["y"], true⟩, 11)]).1
        (some 1) = some 0 := by decide

/-- C10 (amended): a stack composite registers only itself at apply time —
its members stay unregistered (level and outermost queries return `None`)
until the composed callable is first invoked; each invocation re-applies the
members to the original target, producing fresh wrapper closures, but the
registry keys derive from the stable member identities, so the first
invocation adds the member entries and later invocations overwrite them,
leaving the registry unchanged. -/
theorem claim10_stack_lazy_registration :
    levelOf (stackApply [] 5 none [["p1"], ["p2"]] 20
        ⟨.plain 0, ⟨[⟨"req", .posOrKw, "", none⟩]⟩⟩).1 none = none ∧
    isFirstDec (stackApply [] 5 none [["p1"], ["p2"]] 20
        ⟨.plain 0, ⟨[⟨"req", .posOrKw, "", none⟩]⟩⟩).1 none = none ∧
    rget (stackApply [] 5 none [["p1"], ["p2"]] 20
        ⟨.plain 0, ⟨[⟨"req", .posOrKw, "", none⟩]⟩⟩).1 1 = none ∧
    rget (stackApply [] 5 none [["p1"], ["p2"]] 20
        ⟨.plain 0, ⟨[⟨"req", .posOrKw, "", none⟩]⟩⟩).1 2 = none ∧
    levelOf (stackInvoke (stackApply [] 5 none [["p1"], ["p2"]] 20
        ⟨.plain 0, ⟨[⟨"req", .posOrKw, "", none⟩]⟩⟩).1
        ⟨.plain 0, ⟨[⟨"req", .posOrKw, "", none⟩]⟩⟩
        [(⟨1, ["p1"], true⟩, 21), (⟨2, ["p2"], true⟩, 22)]).1 (some 1) = some 0 ∧
    levelOf (stackInvoke (stackApply [] 5 none [["p1"], ["p2"]] 20
        ⟨.plain 0, ⟨[⟨"req", .posOrKw, "", none⟩]⟩⟩).1
        ⟨.plain 0, ⟨[⟨"req", .posOrKw, "", none⟩]⟩⟩
        [(⟨1, ["p1"], true⟩, 21), (⟨2, ["p2"], true⟩, 22)]).1 (some 2) = some 1 ∧
    (stackInvoke (stackInvoke (stackApply [] 5 none [["p1"], ["p2"]] 20
        ⟨.plain 0, ⟨[⟨"req", .posOrKw, "", none⟩]⟩⟩).1
        ⟨.plain 0, ⟨[⟨"req", .posOrKw, "", none⟩]⟩⟩
        [(⟨1, ["p1"], true⟩, 21), (⟨2, ["p2"], true⟩, 22)]).1
        ⟨.plain 0, ⟨[⟨"req", .posOrKw, "", none⟩]⟩⟩
        [(⟨1, ["p1"], true⟩, 23), (⟨2, ["p2"], true⟩, 24)]).1
      = (stackInvoke (stackApply [] 5 none [["p1"], ["p2"]] 20
        ⟨.plain 0, ⟨[⟨"req", .posOrKw, "", none⟩]⟩⟩).1
        ⟨.plain 0, ⟨[⟨"req", .posOrKw, "", none⟩]⟩⟩
        [(⟨1, ["p1"], true⟩, 21), (⟨2, ["p2"], true⟩, 22)]).1 ∧
    (stackInvoke (stackInvoke (stackApply [] 5 none [["p1"], ["p2"]] 20
        ⟨.plain 0, ⟨[⟨"req", .posOrKw, "", none⟩]⟩⟩).1
        ⟨.plain 0, ⟨[⟨"req", .posOrKw, "", none⟩]⟩⟩
        [(⟨1, ["p1"], true⟩, 21), (⟨2, ["p2"], true⟩, 22)]).1
        ⟨.plain 0, ⟨[⟨"req", .posOrKw, "", none⟩]⟩⟩
        [(⟨1, ["p1"], true⟩, 23), (⟨2, ["p2"], true⟩, 24)]).2.shape
      ≠ (stackInvoke (stackApply [] 5 none [["p1"], ["p2"]] 20
        ⟨.plain 0, ⟨[⟨"req", .posOrKw, "", none⟩]⟩⟩).1
        ⟨.plain 0, ⟨[⟨"req", .posOrKw, "", none⟩]⟩⟩
        [(⟨1, ["p1"], true⟩, 21), (⟨2, ["p2"], true⟩, 22)]).2.shape := by decide

/-- C10 counterexample: the second invocation of the stack-composed callable
adds no new registry entries at all — it overwrites the existing member
entries with the same keys and values, leaving the registry exactly as after
the first invocation (the claim asserts new entries per invocation). -/
theorem claim10_counterexample :
    (stackInvoke (stackInvoke (stackApply [] 5 none [["x"]] 20 ⟨.plain 0, ⟨[]⟩⟩).1
        ⟨.plain 0, ⟨[]⟩⟩ [(⟨1, ["x"], true⟩, 21)]).1
        ⟨.plain 0, ⟨[]⟩⟩ [(⟨1, ["x"], true⟩, 22)]).1
      = (stackInvoke (stackApply [] 5 none [["x"]] 20 ⟨.plain 0, ⟨[]⟩⟩).1
        ⟨.plain 0, ⟨[]⟩⟩ [(⟨1, ["x"], true⟩, 21)]).1 := by decide

end Functown
